import Mathlib

/-!
# Verification of the `sortedIndex` / `sortedIndexOf` binary search

Shallow embedding of the two JavaScript functions from the repository's
binary-search documentation page:

```javascript
function sortedIndex(array, value, _range) {
  const [low, high] = _range ?? [0, array.length];
  if (low === high) {
    return low;
  }

  const midPoint = low + Math.floor((high - low) / 2);
  const newRange = value <= array[midPoint]
    ? [low, midPoint]
    : [midPoint + 1, high];

  return sortedIndex(array, value, newRange);
}

function sortedIndexOf(array, value) {
  const index = sortedIndex(array, value);
  return array[index] === value ? index : -1;
}
```

Sequences are embedded as `List Int`, the query value as `Int`, and indices
as `Nat`.  The out-of-bounds JavaScript read `array[i]` yields `undefined`,
and `value <= undefined` evaluates to `false`; the embedding models the read
as `List.get?` and that comparison as `jsLeOpt`.  Likewise
`array[index] === value` is `false` when the index is out of range.
-/

namespace SnapJs

/-- The JavaScript comparison `value <= array[midPoint]`: when the index is in
range it is the ordinary `≤` on the numbers; an out-of-range read gives
`undefined` and `value <= undefined` is `false`. -/
def jsLeOpt (value : Int) (elem : Option Int) : Bool :=
  match elem with
  | some x => decide (value ≤ x)
  | none => false

/-- The `newRange` computed by one step of `sortedIndex`:
`value <= array[midPoint] ? [low, midPoint] : [midPoint + 1, high]`
with `midPoint = low + Math.floor((high - low) / 2)`. -/
def newRange (array : List Int) (value : Int) (low high : Nat) : Nat × Nat :=
  if jsLeOpt value (array.get? (low + (high - low) / 2)) then
    (low, low + (high - low) / 2)
  else
    (low + (high - low) / 2 + 1, high)

/-- The recursion of `sortedIndex` on an explicit `_range = [low, high]`.
The JavaScript guard is `low === high`; on every range reachable from the
top-level entry (no `_range` argument) the invariant `low ≤ high` holds
(`Reach_invariant` below), so the guard coincides with `high ≤ low`.  On the
unreachable ill-formed ranges with `high < low` the JavaScript recursion does
not terminate; this embedding returns `low` there, which no theorem below
depends on. -/
def sortedIndexRange (array : List Int) (value : Int) (low high : Nat) : Nat :=
  if high ≤ low then
    low
  else
    sortedIndexRange array value (newRange array value low high).1
      (newRange array value low high).2
termination_by high - low
decreasing_by
  simp only [newRange]
  split <;> omega

/-- `sortedIndex(array, value)` called without `_range`: the range defaults to
`[0, array.length]`. -/
def sortedIndex (array : List Int) (value : Int) : Nat :=
  sortedIndexRange array value 0 array.length

/-- `sortedIndexOf(array, value)`: look up `sortedIndex(array, value)` and
return it when `array[index] === value`, and `-1` otherwise (also when the
index is out of range, where `array[index]` is `undefined`). -/
def sortedIndexOf (array : List Int) (value : Int) : Int :=
  match array.get? (sortedIndex array value) with
  | some x => if x = value then (sortedIndex array value : Int) else -1
  | none => -1

/-- Number of invocations of `sortedIndex` (the top-level call included)
performed when running on the range `[low, high]`. -/
def sortedIndexSteps (array : List Int) (value : Int) (low high : Nat) : Nat :=
  if high ≤ low then
    1
  else
    1 + sortedIndexSteps array value (newRange array value low high).1
      (newRange array value low high).2
termination_by high - low
decreasing_by
  simp only [newRange]
  split <;> omega

/-- The ranges `[low, high]` passed to some invocation of `sortedIndex`
reachable from the top-level call `sortedIndex(array, value)` (where `_range`
defaults to `[0, array.length]`): the initial range, plus one constructor for
each recursive call taken when `low < high`. -/
inductive Reach (array : List Int) (value : Int) : Nat → Nat → Prop
  | init : Reach array value 0 array.length
  | step {low high : Nat} : Reach array value low high → low < high →
      Reach array value (newRange array value low high).1
        (newRange array value low high).2

/-! ## Helper lemmas -/

theorem sortedIndexRange_base (array : List Int) (value : Int) (low high : Nat)
    (h : high ≤ low) : sortedIndexRange array value low high = low := by
  rw [sortedIndexRange]
  simp [h]

theorem sortedIndexRange_step (array : List Int) (value : Int) (low high : Nat)
    (h : low < high) :
    sortedIndexRange array value low high =
      sortedIndexRange array value (newRange array value low high).1
        (newRange array value low high).2 := by
  rw [sortedIndexRange]
  simp [Nat.not_le.mpr h]

theorem sortedIndexSteps_base (array : List Int) (value : Int) (low high : Nat)
    (h : high ≤ low) : sortedIndexSteps array value low high = 1 := by
  rw [sortedIndexSteps]
  simp [h]

theorem sortedIndexSteps_step (array : List Int) (value : Int) (low high : Nat)
    (h : low < high) :
    sortedIndexSteps array value low high =
      1 + sortedIndexSteps array value (newRange array value low high).1
        (newRange array value low high).2 := by
  rw [sortedIndexSteps]
  simp [Nat.not_le.mpr h]

/-- On a nonempty range the new range stays inside `[low, high]` and its size
is at most half of (hence strictly smaller than) the old size. -/
theorem newRange_bounds (array : List Int) (value : Int) (low high : Nat)
    (h : low < high) :
    low ≤ (newRange array value low high).1 ∧
    (newRange array value low high).1 ≤ (newRange array value low high).2 ∧
    (newRange array value low high).2 ≤ high ∧
    (newRange array value low high).2 - (newRange array value low high).1
      ≤ (high - low) / 2 ∧
    (newRange array value low high).2 - (newRange array value low high).1
      < high - low := by
  simp only [newRange]
  split <;> refine ⟨by omega, by omega, by omega, by omega, by omega⟩

/-- Elements of a `≤`-sorted list read through `get?` are monotone in the
index. -/
theorem sorted_get?_le {array : List Int} (hs : List.Sorted (· ≤ ·) array)
    {i j : Nat} {x y : Int} (hij : i ≤ j)
    (hx : array.get? i = some x) (hy : array.get? j = some y) : x ≤ y := by
  have hjl : j < array.length := by
    by_contra hcon
    rw [List.get?_eq_none.mpr (by omega)] at hy
    exact Option.noConfusion hy
  have hil : i < array.length := lt_of_le_of_lt (Nat.le_of_eq rfl) hjl |>.trans_le' hij
  rw [List.get?_eq_get hil] at hx
  rw [List.get?_eq_get hjl] at hy
  injection hx with hx
  injection hy with hy
  subst hx
  subst hy
  exact hs.rel_get_of_le (show (⟨i, hil⟩ : Fin array.length) ≤ ⟨j, hjl⟩ from hij)

/-- Without any sortedness assumption, the recursion keeps its result inside
`[low, high]`. -/
theorem sortedIndexRange_mem (array : List Int) (value : Int) :
    ∀ n low high, high - low ≤ n → low ≤ high →
      low ≤ sortedIndexRange array value low high ∧
      sortedIndexRange array value low high ≤ high := by
  intro n
  induction n with
  | zero =>
    intro low high hn hlh
    rw [sortedIndexRange_base array value low high (by omega)]
    omega
  | succ n ih =>
    intro low high hn hlh
    by_cases h : high ≤ low
    · rw [sortedIndexRange_base array value low high h]
      omega
    · have hlt : low < high := by omega
      rw [sortedIndexRange_step array value low high hlt]
      have hb := newRange_bounds array value low high hlt
      have hrec := ih (newRange array value low high).1
        (newRange array value low high).2 (by omega) (by omega)
      omega

/-- Main invariant of the binary search on a sorted list: starting from a
well-formed range whose outside already satisfies the lower-bound
characterisation, the result is inside the range and satisfies the full
characterisation: everything strictly before it is `< value`, everything at
or after it is `≥ value`. -/
theorem sortedIndexRange_spec (array : List Int) (value : Int)
    (hs : List.Sorted (· ≤ ·) array) :
    ∀ n low high, high - low ≤ n → low ≤ high → high ≤ array.length →
      (∀ j x, j < low → array.get? j = some x → x < value) →
      (∀ j x, high ≤ j → array.get? j = some x → value ≤ x) →
      low ≤ sortedIndexRange array value low high ∧
      sortedIndexRange array value low high ≤ high ∧
      (∀ j x, j < sortedIndexRange array value low high →
        array.get? j = some x → x < value) ∧
      (∀ j x, sortedIndexRange array value low high ≤ j →
        array.get? j = some x → value ≤ x) := by
  intro n
  induction n with
  | zero =>
    intro low high hn hlh hhl hlow hhigh
    have heq : high = low := by omega
    rw [sortedIndexRange_base array value low high (by omega)]
    exact ⟨le_refl low, by omega, hlow, fun j x hj hx => hhigh j x (by omega) hx⟩
  | succ n ih =>
    intro low high hn hlh hhl hlow hhigh
    by_cases h : high ≤ low
    · have heq : high = low := by omega
      rw [sortedIndexRange_base array value low high h]
      exact ⟨le_refl low, by omega, hlow, fun j x hj hx => hhigh j x (by omega) hx⟩
    · have hlt : low < high := by omega
      have hmidlt : low + (high - low) / 2 < high := by omega
      have hmidlen : low + (high - low) / 2 < array.length := by omega
      obtain ⟨m, hm⟩ : ∃ m, array.get? (low + (high - low) / 2) = some m :=
        ⟨_, List.get?_eq_get hmidlen⟩
      by_cases hc : value ≤ m
      · have hnr : newRange array value low high = (low, low + (high - low) / 2) := by
          unfold newRange jsLeOpt
          rw [hm]
          simp [hc]
        have hstep : sortedIndexRange array value low high
            = sortedIndexRange array value low (low + (high - low) / 2) := by
          rw [sortedIndexRange_step array value low high hlt, hnr]
        obtain ⟨h1, h2, h3, h4⟩ := ih low (low + (high - low) / 2) (by omega) (by omega)
          (by omega) hlow (fun j x hj hx => le_trans hc (sorted_get?_le hs hj hm hx))
        rw [hstep]
        exact ⟨h1, by omega, h3, h4⟩
      · have hmv : m < value := by omega
        have hnr : newRange array value low high = (low + (high - low) / 2 + 1, high) := by
          unfold newRange jsLeOpt
          rw [hm]
          simp [hc]
        have hstep : sortedIndexRange array value low high
            = sortedIndexRange array value (low + (high - low) / 2 + 1) high := by
          rw [sortedIndexRange_step array value low high hlt, hnr]
        obtain ⟨h1, h2, h3, h4⟩ := ih (low + (high - low) / 2 + 1) high (by omega)
          (by omega) hhl
          (fun j x hj hx =>
            lt_of_le_of_lt
              (sorted_get?_le hs (show j ≤ low + (high - low) / 2 by omega) hx hm) hmv)
          hhigh
        rw [hstep]
        exact ⟨by omega, h2, h3, h4⟩

/-- The lower-bound characterisation at the top-level entry point. -/
theorem sortedIndex_spec (array : List Int) (value : Int)
    (hs : List.Sorted (· ≤ ·) array) :
    sortedIndex array value ≤ array.length ∧
    (∀ j x, j < sortedIndex array value → array.get? j = some x → x < value) ∧
    (∀ j x, sortedIndex array value ≤ j → array.get? j = some x → value ≤ x) := by
  have hspec := sortedIndexRange_spec array value hs array.length 0 array.length
    (by omega) (by omega) (le_refl _)
    (fun j x hj _ => absurd hj (Nat.not_lt_zero j))
    (fun j x hj hx => by
      rw [List.get?_eq_none.mpr hj] at hx
      exact Option.noConfusion hx)
  exact ⟨hspec.2.1, hspec.2.2⟩

/-- On a sorted list that contains `value`, `sortedIndex` lands exactly on the
first occurrence of `value`. -/
theorem sortedIndex_mem_first (array : List Int) (value : Int)
    (hs : List.Sorted (· ≤ ·) array) (hmem : value ∈ array) :
    array.get? (sortedIndex array value) = some value ∧
    ∀ j, j < sortedIndex array value → array.get? j ≠ some value := by
  obtain ⟨k, hk⟩ := List.mem_iff_get?.mp hmem
  have hklen : k < array.length := by
    by_contra hcon
    rw [List.get?_eq_none.mpr (by omega)] at hk
    exact Option.noConfusion hk
  obtain ⟨hlen, hbefore, hafter⟩ := sortedIndex_spec array value hs
  have hik : sortedIndex array value ≤ k := by
    by_contra hcon
    exact absurd (hbefore k value (by omega) hk) (lt_irrefl value)
  obtain ⟨x, hx⟩ : ∃ x, array.get? (sortedIndex array value) = some x :=
    ⟨_, List.get?_eq_get (lt_of_le_of_lt hik hklen)⟩
  have h1 : value ≤ x := hafter _ x (le_refl _) hx
  have h2 : x ≤ value := sorted_get?_le hs hik hx hk
  have hxv : x = value := le_antisymm h2 h1
  subst hxv
  exact ⟨hx, fun j hj hcon => absurd (hbefore j x hj hcon) (lt_irrefl x)⟩

/-- If position `n` holds the first occurrence of `a` (positionally), then
`List.indexOf` returns `n`. -/
theorem indexOf_eq_of_first (a : Int) :
    ∀ (l : List Int) (n : Nat), l.get? n = some a →
      (∀ j, j < n → l.get? j ≠ some a) → List.indexOf a l = n := by
  intro l
  induction l with
  | nil =>
    intro n hn _
    simp at hn
  | cons b t ih =>
    intro n hn hfirst
    by_cases hba : b = a
    · subst hba
      cases n with
      | zero => simp [List.indexOf_cons_self]
      | succ n => exact absurd rfl (hfirst 0 (Nat.succ_pos n))
    · cases n with
      | zero =>
        injection hn with hn
        exact absurd hn hba
      | succ n =>
        rw [List.indexOf_cons_ne t hba,
          ih n hn (fun j hj => hfirst (j + 1) (by omega))]

/-- The number of recursive steps is logarithmic in any bound on the size of
the initial range. -/
theorem sortedIndexSteps_le_log2 (array : List Int) (value : Int) :
    ∀ n low high, high - low ≤ n →
      sortedIndexSteps array value low high ≤ Nat.log2 n + 2 := by
  intro n
  induction n using Nat.strong_induction_on with
  | _ n ih =>
    intro low high hn
    by_cases h : high ≤ low
    · rw [sortedIndexSteps_base array value low high h]
      omega
    · have hlt : low < high := by omega
      rw [sortedIndexSteps_step array value low high hlt]
      have hb := newRange_bounds array value low high hlt
      by_cases h1 : n < 2
      · rw [sortedIndexSteps_base array value
          (newRange array value low high).1 (newRange array value low high).2 (by omega)]
        omega
      · have hrec := ih (n / 2) (by omega) (newRange array value low high).1
          (newRange array value low high).2 (by omega)
        have hlog : Nat.log2 n = Nat.log2 (n / 2) + 1 := by
          rw [Nat.log2, if_pos (by omega : n ≥ 2)]
        omega

/-! ## Claims -/

/-- C1: for every sequence sorted ascending and every query value,
`sortedIndex(array, value)` with no `_range` argument (the `lowerBound`
operation) returns an index in `[0, length]` such that every element strictly
before it is strictly less than `value` and every element at or after it is
greater than or equal to `value`. -/
theorem C1_lowerBound_characterisation (array : List Int) (value : Int)
    (hs : List.Sorted (· ≤ ·) array) :
    sortedIndex array value ≤ array.length ∧
    (∀ j x, j < sortedIndex array value → array.get? j = some x → x < value) ∧
    (∀ j x, sortedIndex array value ≤ j → array.get? j = some x → value ≤ x) :=
  sortedIndex_spec array value hs

/-- Witness for C1 at `array = [10, 20, 30, 30, 40]`, `value = 30`. -/
theorem C1_lowerBound_characterisation_witness :
    List.Sorted (· ≤ ·) ([10, 20, 30, 30, 40] : List Int) ∧
    (sortedIndex [10, 20, 30, 30, 40] 30 ≤ ([10, 20, 30, 30, 40] : List Int).length ∧
     (∀ j x, j < sortedIndex [10, 20, 30, 30, 40] 30 →
        ([10, 20, 30, 30, 40] : List Int).get? j = some x → x < 30) ∧
     (∀ j x, sortedIndex [10, 20, 30, 30, 40] 30 ≤ j →
        ([10, 20, 30, 30, 40] : List Int).get? j = some x → 30 ≤ x)) :=
  ⟨by decide, C1_lowerBound_characterisation [10, 20, 30, 30, 40] 30 (by decide)⟩

/-- C2: on a sorted sequence `sortedIndexOf` returns `-1` exactly when the
value does not occur, otherwise the index of the first occurrence (which is
the `sortedIndex` result); in general it returns the `sortedIndex` result
exactly when the element found there equals the value, and `-1` otherwise. -/
theorem C2_sortedIndexOf_spec (array : List Int) (value : Int)
    (hs : List.Sorted (· ≤ ·) array) :
    (value ∉ array → sortedIndexOf array value = -1) ∧
    (value ∈ array →
      sortedIndexOf array value = (sortedIndex array value : Int) ∧
      array.get? (sortedIndex array value) = some value ∧
      (∀ j, j < sortedIndex array value → array.get? j ≠ some value)) ∧
    sortedIndexOf array value =
      (if array.get? (sortedIndex array value) = some value
       then (sortedIndex array value : Int) else -1) := by
  refine ⟨fun hnot => ?_, fun hmem => ?_, ?_⟩
  · cases hg : array.get? (sortedIndex array value) with
    | none =>
      unfold sortedIndexOf
      rw [hg]
    | some x =>
      have hxv : x ≠ value := fun hxv => hnot (hxv ▸ List.get?_mem hg)
      unfold sortedIndexOf
      rw [hg]
      simp [hxv]
  · obtain ⟨hget, hfirst⟩ := sortedIndex_mem_first array value hs hmem
    refine ⟨?_, hget, hfirst⟩
    unfold sortedIndexOf
    rw [hget]
    simp
  · cases hg : array.get? (sortedIndex array value) with
    | none =>
      unfold sortedIndexOf
      rw [hg]
      simp [hg]
    | some x =>
      by_cases hxv : x = value
      · subst hxv
        unfold sortedIndexOf
        rw [hg]
        simp [hg]
      · unfold sortedIndexOf
        rw [hg]
        simp [hg, hxv, Ne.symm hxv]

/-- Witness for C2 at `array = [10, 20, 30, 30, 40]`, `value = 35`. -/
theorem C2_sortedIndexOf_spec_witness :
    List.Sorted (· ≤ ·) ([10, 20, 30, 30, 40] : List Int) ∧
    (((35 : Int) ∉ ([10, 20, 30, 30, 40] : List Int) →
        sortedIndexOf [10, 20, 30, 30, 40] 35 = -1) ∧
     ((35 : Int) ∈ ([10, 20, 30, 30, 40] : List Int) →
        sortedIndexOf [10, 20, 30, 30, 40] 35 =
          (sortedIndex [10, 20, 30, 30, 40] 35 : Int) ∧
        ([10, 20, 30, 30, 40] : List Int).get? (sortedIndex [10, 20, 30, 30, 40] 35) =
          some 35 ∧
        (∀ j, j < sortedIndex [10, 20, 30, 30, 40] 35 →
          ([10, 20, 30, 30, 40] : List Int).get? j ≠ some 35)) ∧
     sortedIndexOf [10, 20, 30, 30, 40] 35 =
       (if ([10, 20, 30, 30, 40] : List Int).get? (sortedIndex [10, 20, 30, 30, 40] 35) =
           some 35
        then (sortedIndex [10, 20, 30, 30, 40] 35 : Int) else -1)) :=
  ⟨by decide, C2_sortedIndexOf_spec [10, 20, 30, 30, 40] 35 (by decide)⟩

/-- C3: on a sorted sequence containing at least one occurrence of `value`,
`sortedIndex` returns the index of the first (leftmost) occurrence: the
element there is `value`, no strictly earlier position holds `value`, and the
result agrees with `List.indexOf`. -/
theorem C3_first_occurrence (array : List Int) (value : Int)
    (hs : List.Sorted (· ≤ ·) array) (hmem : value ∈ array) :
    array.get? (sortedIndex array value) = some value ∧
    (∀ j, j < sortedIndex array value → array.get? j ≠ some value) ∧
    sortedIndex array value = List.indexOf value array := by
  obtain ⟨hget, hfirst⟩ := sortedIndex_mem_first array value hs hmem
  exact ⟨hget, hfirst, (indexOf_eq_of_first value array _ hget hfirst).symm⟩

/-- Witness for C3 at `array = [10, 20, 30, 30, 40]`, `value = 30` (two
occurrences; the first is at index 2). -/
theorem C3_first_occurrence_witness :
    List.Sorted (· ≤ ·) ([10, 20, 30, 30, 40] : List Int) ∧
    (30 : Int) ∈ ([10, 20, 30, 30, 40] : List Int) ∧
    (([10, 20, 30, 30, 40] : List Int).get? (sortedIndex [10, 20, 30, 30, 40] 30) =
       some 30 ∧
     (∀ j, j < sortedIndex [10, 20, 30, 30, 40] 30 →
        ([10, 20, 30, 30, 40] : List Int).get? j ≠ some 30) ∧
     sortedIndex [10, 20, 30, 30, 40] 30 =
       List.indexOf 30 ([10, 20, 30, 30, 40] : List Int)) :=
  ⟨by decide, by decide, C3_first_occurrence [10, 20, 30, 30, 40] 30 (by decide) (by decide)⟩

/-- C4: the recursion terminates: whenever `low < high`, the new range is
strictly smaller than `[low, high)` by at least one element, and the total
number of invocations from the top-level call is logarithmic
(`≤ log2 N + 2`). -/
theorem C4_termination (array : List Int) (value : Int) (low high : Nat)
    (h : low < high) :
    (newRange array value low high).2 - (newRange array value low high).1
      < high - low ∧
    sortedIndexSteps array value 0 array.length ≤ Nat.log2 array.length + 2 :=
  ⟨(newRange_bounds array value low high h).2.2.2.2,
   sortedIndexSteps_le_log2 array value array.length 0 array.length (by omega)⟩

/-- Witness for C4 at `array = [10, 20, 30, 30, 40]`, `value = 30`,
`[low, high] = [0, 5]`. -/
theorem C4_termination_witness :
    (0 : Nat) < 5 ∧
    ((newRange [10, 20, 30, 30, 40] 30 0 5).2 -
        (newRange [10, 20, 30, 30, 40] 30 0 5).1 < 5 - 0 ∧
     sortedIndexSteps [10, 20, 30, 30, 40] 30 0 ([10, 20, 30, 30, 40] : List Int).length ≤
       Nat.log2 ([10, 20, 30, 30, 40] : List Int).length + 2) :=
  ⟨by decide, C4_termination [10, 20, 30, 30, 40] 30 0 5 (by decide)⟩

/-- C5: for every sequence — sorted or not, no sortedness hypothesis appears —
and every value, `sortedIndex` returns an index in the closed range
`[0, length]`; it is a total function, never an error. -/
theorem C5_always_in_range (array : List Int) (value : Int) :
    0 ≤ sortedIndex array value ∧ sortedIndex array value ≤ array.length :=
  ⟨Nat.zero_le _,
   (sortedIndexRange_mem array value array.length 0 array.length (by omega)
     (by omega)).2⟩

/-- C6: on the empty sequence `sortedIndex` returns 0 and `sortedIndexOf`
returns the not-found sentinel `-1`, for every query value. -/
theorem C6_empty_sequence (value : Int) :
    sortedIndex [] value = 0 ∧ sortedIndexOf [] value = -1 := by
  constructor <;> simp [sortedIndexOf, sortedIndex, sortedIndexRange, newRange, jsLeOpt]

/-- C7: the six concrete scenarios from the specification. -/
theorem C7_concrete_scenarios :
    sortedIndex [10, 20, 30, 30, 40] 30 = 2 ∧
    sortedIndex [10, 20, 30, 30, 40] 25 = 2 ∧
    sortedIndex [10, 20, 30, 30, 40] 5 = 0 ∧
    sortedIndex [10, 20, 30, 30, 40] 50 = 5 ∧
    sortedIndexOf [10, 20, 30, 30, 40] 30 = 2 ∧
    sortedIndexOf [10, 20, 30, 30, 40] 35 = -1 := by
  refine ⟨?_, ?_, ?_, ?_, ?_, ?_⟩ <;>
    simp [sortedIndexOf, sortedIndex, sortedIndexRange, newRange, jsLeOpt]

/-- C8: `sortedIndex` and `sortedIndexOf` are deterministic pure functions:
identical inputs yield identical results.  (In this embedding the input list
is a value, so the absence of mutation of the caller's sequence holds by
construction: the source only reads `array`.) -/
theorem C8_deterministic (a1 a2 : List Int) (v1 v2 : Int)
    (ha : a1 = a2) (hv : v1 = v2) :
    sortedIndex a1 v1 = sortedIndex a2 v2 ∧
    sortedIndexOf a1 v1 = sortedIndexOf a2 v2 := by
  subst ha
  subst hv
  exact ⟨rfl, rfl⟩

/-- Witness for C8 at `array = [10, 20, 30, 30, 40]`, `value = 30`. -/
theorem C8_deterministic_witness :
    ([10, 20, 30, 30, 40] : List Int) = [10, 20, 30, 30, 40] ∧
    (30 : Int) = 30 ∧
    (sortedIndex [10, 20, 30, 30, 40] 30 = sortedIndex [10, 20, 30, 30, 40] 30 ∧
     sortedIndexOf [10, 20, 30, 30, 40] 30 = sortedIndexOf [10, 20, 30, 30, 40] 30) :=
  ⟨rfl, rfl, C8_deterministic [10, 20, 30, 30, 40] [10, 20, 30, 30, 40] 30 30 rfl rfl⟩

/-- C9: every range `[low, high]` reachable from the top-level call satisfies
`0 ≤ low ≤ high ≤ array.length`, and when `low < high` (the only case in which
`array[midPoint]` is read) the midpoint satisfies `low ≤ midPoint < high`, so
the optional read returns a value (`isSome`). -/
theorem C9_reachable_ranges_safe (array : List Int) (value : Int)
    (low high : Nat) (h : Reach array value low high) :
    low ≤ high ∧ high ≤ array.length ∧
    (low < high →
      low ≤ low + (high - low) / 2 ∧
      low + (high - low) / 2 < high ∧
      (array.get? (low + (high - low) / 2)).isSome) := by
  induction h with
  | init =>
    refine ⟨Nat.zero_le _, le_refl _, fun hlt => ⟨by omega, by omega, ?_⟩⟩
    rw [List.get?_eq_get (by omega)]
    rfl
  | step hr hlt ih =>
    obtain ⟨h1, h2, -⟩ := ih
    have hb := newRange_bounds array value _ _ hlt
    refine ⟨by omega, by omega, fun hlt2 => ⟨by omega, by omega, ?_⟩⟩
    rw [List.get?_eq_get (by omega)]
    rfl

/-- Witness for C9 at the initial range `[0, 5]` of
`sortedIndex([10, 20, 30, 30, 40], 30)`. -/
theorem C9_reachable_ranges_safe_witness :
    Reach [10, 20, 30, 30, 40] 30 0 5 ∧
    ((0 : Nat) ≤ 5 ∧ 5 ≤ ([10, 20, 30, 30, 40] : List Int).length ∧
     ((0 : Nat) < 5 →
       (0 : Nat) ≤ 0 + (5 - 0) / 2 ∧
       0 + (5 - 0) / 2 < 5 ∧
       (([10, 20, 30, 30, 40] : List Int).get? (0 + (5 - 0) / 2)).isSome)) :=
  ⟨Reach.init, C9_reachable_ranges_safe [10, 20, 30, 30, 40] 30 0 5 Reach.init⟩

/-- C10: on a sorted sequence `sortedIndex` is monotone in the query value. -/
theorem C10_monotone_in_value (array : List Int) (v w : Int)
    (hs : List.Sorted (· ≤ ·) array) (hvw : v ≤ w) :
    sortedIndex array v ≤ sortedIndex array w := by
  by_contra hcon
  push_neg at hcon
  have hv := sortedIndex_spec array v hs
  have hw := sortedIndex_spec array w hs
  have hklen : sortedIndex array w < array.length := lt_of_lt_of_le hcon hv.1
  obtain ⟨x, hx⟩ : ∃ x, array.get? (sortedIndex array w) = some x :=
    ⟨_, List.get?_eq_get hklen⟩
  have h1 : x < v := hv.2.1 _ x hcon hx
  have h2 : w ≤ x := hw.2.2 _ x (le_refl _) hx
  omega

/-- Witness for C10 at `array = [10, 20, 30, 30, 40]`, `v = 25`, `w = 30`. -/
theorem C10_monotone_in_value_witness :
    List.Sorted (· ≤ ·) ([10, 20, 30, 30, 40] : List Int) ∧
    (25 : Int) ≤ 30 ∧
    sortedIndex [10, 20, 30, 30, 40] 25 ≤ sortedIndex [10, 20, 30, 30, 40] 30 :=
  ⟨by decide, by decide,
   C10_monotone_in_value [10, 20, 30, 30, 40] 25 30 (by decide) (by decide)⟩

end SnapJs
